import Mathlib

/-!
Shallow embedding of `asteroid/losses/mixit_wrapper.py` (class
`MixITLossWrapper`: mixture invariant loss wrapper).

Modelling choices, matched line by line against the Python source:

* A signal (a waveform slice `est_targets[b, i, :]`) is an element of an
  additive commutative monoid `α`; summing sources along the source axis
  (`torch.sum(..., axis=1)`) is the monoid sum, and summing an empty group
  of sources yields `0`, exactly as `torch.sum` over an empty slice yields
  a zero tensor.
* A batch of estimated sources (`est_targets`, shape `[batch, nsrc, *]`) is
  a function `est : ℕ → ℕ → α` (batch index, then source index); a batch of
  targets (`targets`, shape `[batch, nmix, *]`) is `tgt : ℕ → List α`.
* The user-supplied `loss_func` is assumed (as the spec's contract states)
  to compute each batch element's loss from that element alone, so it is
  modelled by its per-batch-element action `loss1 : List α → List α → ℚ`
  (estimated mixtures, targets ↦ loss); losses are exact rationals, which
  models `torch` real arithmetic exactly.
* `torch.min(loss_set, dim=1, keepdim=True)` returns, per batch row, the
  minimal value and the index of its first occurrence; this is
  `firstMinPair` below.  `keepdim=True` makes both outputs `(batch, 1)`
  tensors, modelled as lists of singleton rows.
* Raised `ValueError`s (and the `ZeroDivisionError` that `nsrc % nmix`
  raises in Python when `nmix = 0`) are modelled with `Except String`;
  the unreachable trailing `return` of `forward` is modelled with
  `Option` (`none` = Python `None`).
-/

/-- Model of `itertools.combinations(lst, k)`: all length-`k` sublists of `lst`, in
the order itertools emits them (lexicographic in the positions chosen). -/
def combinations {α : Type} : ℕ → List α → List (List α)
  | 0, _ => [[]]
  | _ + 1, [] => []
  | k + 1, x :: xs =>
      ((combinations k xs).map (fun c => x :: c)) ++ combinations (k + 1) xs

/-- The inner generator `parts_mixit(lst, k, l)` of `best_part_mix_it`
(source lines 136-143): if `l == 0` yield `[]`; otherwise for each
combination `c` of size `k` from `lst`, recurse on
`rest = [x for x in lst if x not in c]` with `l-1` parts and prepend
`list(c)`.  Arguments are reordered to `(k, l, lst)` so that the
recursion is structural in `l`; the emitted list order is exactly the
generator's yield order. -/
def parts_mixit (k : ℕ) : ℕ → List ℕ → List (List (List ℕ))
  | 0, _ => [[]]
  | l + 1, lst =>
      (combinations k lst).flatMap (fun c =>
        (parts_mixit k l (lst.filter (fun x => x ∉ c))).map (fun r => c :: r))

/-- The inner function `parts_mixit_gen(lst)` of
`best_part_mix_it_generalized` (source lines 206-212): for each `k` in
`range(len(lst) + 1)` and each combination `c` of size `k`, append the
two-group candidate `[list(c), rest]` where
`rest = [x for x in lst if x not in c]`. -/
def parts_mixit_gen (lst : List ℕ) : List (List (List ℕ)) :=
  (List.range (lst.length + 1)).flatMap (fun k =>
    (combinations k lst).map (fun c => [c, lst.filter (fun x => x ∉ c)]))

/-- Closed-form length of `parts_mixit k l lst` as a function of
`lst.length` alone (for duplicate-free `lst`): at each level choose
`C(n, k)` combinations and recurse on the remaining `n - k` items. -/
def plen (k : ℕ) : ℕ → ℕ → ℕ
  | 0, _ => 1
  | l + 1, n => Nat.choose n k * plen k l (n - k)

/-- Model of `torch.min(row, ...)` along a row: value of the minimum together with
the index of its *first* occurrence (PyTorch documents that with `dim`
given, the index of the first minimal value is returned).  On the empty
row (which `torch` rejects) we return junk `(0, 0)`. -/
def firstMinPair : List ℚ → ℕ × ℚ
  | [] => (0, 0)
  | [x] => (0, x)
  | x :: y :: xs =>
      let p := firstMinPair (y :: xs)
      if p.2 < x then (p.1 + 1, p.2) else (0, x)

/-- Index component of `torch.min(row)`: first index attaining the row
minimum. -/
def firstMinIdx (l : List ℚ) : ℕ := (firstMinPair l).1

/-- Value component of `torch.min(row)`: the row minimum. -/
def firstMinVal (l : List ℚ) : ℚ := (firstMinPair l).2

/-! Combinatorial facts about `combinations` -/

theorem combinations_length {α : Type} :
    ∀ (lst : List α) (k : ℕ), (combinations k lst).length = Nat.choose lst.length k := by
  intro lst
  induction lst with
  | nil => intro k; cases k <;> simp [combinations]
  | cons x xs ih =>
      intro k
      cases k with
      | zero => simp [combinations]
      | succ k => simp [combinations, ih, Nat.choose_succ_succ]

theorem mem_combinations_sublist {α : Type} :
    ∀ (lst : List α) (k : ℕ) (c : List α),
      c ∈ combinations k lst → c.Sublist lst ∧ c.length = k := by
  intro lst
  induction lst with
  | nil =>
      intro k c hc
      cases k with
      | zero =>
          simp only [combinations, List.mem_singleton] at hc
          subst hc; exact ⟨List.Sublist.refl _, rfl⟩
      | succ k => simp [combinations] at hc
  | cons x xs ih =>
      intro k c hc
      cases k with
      | zero =>
          simp only [combinations, List.mem_singleton] at hc
          subst hc; exact ⟨List.nil_sublist _, rfl⟩
      | succ k =>
          simp only [combinations, List.mem_append, List.mem_map] at hc
          rcases hc with ⟨c', hc', rfl⟩ | hc
          · obtain ⟨hs, hl⟩ := ih k c' hc'
            exact ⟨hs.cons₂ x, by simp [hl]⟩
          · obtain ⟨hs, hl⟩ := ih (k + 1) c hc
            exact ⟨hs.cons x, hl⟩

theorem combinations_eq_nil_of_lt {α : Type} :
    ∀ (lst : List α) (k : ℕ), lst.length < k → combinations k lst = [] := by
  intro lst
  induction lst with
  | nil =>
      intro k hk
      cases k with
      | zero => omega
      | succ k => rfl
  | cons x xs ih =>
      intro k hk
      cases k with
      | zero => simp at hk
      | succ k =>
          simp only [List.length_cons] at hk
          simp [combinations, ih k (by omega), ih (k + 1) (by omega)]

theorem combinations_self {α : Type} :
    ∀ lst : List α, combinations lst.length lst = [lst] := by
  intro lst
  induction lst with
  | nil => rfl
  | cons x xs ih =>
      show combinations (xs.length + 1) (x :: xs) = [x :: xs]
      simp [combinations, ih, combinations_eq_nil_of_lt xs (xs.length + 1) (by omega)]

/-- On a duplicate-free list, filtering down to the members of a sublist
recovers exactly that sublist. -/
theorem filter_mem_of_sublist {α : Type} [DecidableEq α] {c lst : List α}
    (hs : c.Sublist lst) (hn : lst.Nodup) :
    lst.filter (fun x => x ∈ c) = c := by
  induction hs with
  | slnil => rfl
  | @cons l₁ l₂ a h ih =>
      have ha : a ∉ l₂ := (List.nodup_cons.mp hn).1
      have hn' : l₂.Nodup := (List.nodup_cons.mp hn).2
      have hac : a ∉ l₁ := fun hmem => ha (h.subset hmem)
      simpa [List.filter_cons, hac] using ih hn'
  | @cons₂ l₁ l₂ a h ih =>
      have ha : a ∉ l₂ := (List.nodup_cons.mp hn).1
      have hn' : l₂.Nodup := (List.nodup_cons.mp hn).2
      have hcongr : l₂.filter (fun x => x ∈ a :: l₁) = l₂.filter (fun x => x ∈ l₁) := by
        apply List.filter_congr
        intro x hx
        have hxa : x ≠ a := fun hxa => ha (hxa ▸ hx)
        simp [List.mem_cons, hxa]
      rw [List.filter_cons, if_pos (by simp), hcongr, ih hn']

/-- The Python `rest = [x for x in lst if x not in c]`: together with the
chosen combination `c` it is a permutation of the pool `lst`. -/
theorem perm_sublist_filter_not {α : Type} [DecidableEq α] {c lst : List α}
    (hs : c.Sublist lst) (hn : lst.Nodup) :
    List.Perm (c ++ lst.filter (fun x => x ∉ c)) lst := by
  have h1 := List.filter_append_perm (fun x => decide (x ∈ c)) lst
  rw [filter_mem_of_sublist hs hn] at h1
  have h2 : (lst.filter fun x => !decide (x ∈ c)) = lst.filter (fun x => x ∉ c) := by
    apply List.filter_congr
    intro x _
    simp [decide_not]
  rwa [h2] at h1

/-- Length of the filtered rest list: removing a duplicate-free sublist
from a duplicate-free pool leaves `n - k` items. -/
theorem length_filter_not_mem {α : Type} [DecidableEq α] {c lst : List α}
    (hs : c.Sublist lst) (hn : lst.Nodup) :
    (lst.filter (fun x => x ∉ c)).length = lst.length - c.length := by
  have h := (perm_sublist_filter_not hs hn).length_eq
  simp only [List.length_append] at h
  omega

theorem sum_map_const_on {β : Type} (l : List β) (g : β → ℕ) (m : ℕ)
    (h : ∀ x ∈ l, g x = m) : (l.map g).sum = l.length * m := by
  induction l with
  | nil => simp
  | cons x xs ih =>
      have hx := h x (List.mem_cons_self x xs)
      have hxs := ih (fun y hy => h y (List.mem_cons_of_mem x hy))
      simp [hx, hxs, Nat.succ_mul, Nat.add_comm]

theorem sum_map_range (f : ℕ → ℕ) (n : ℕ) :
    ((List.range n).map f).sum = ∑ i ∈ Finset.range n, f i := by
  induction n with
  | zero => simp
  | succ n ih => rw [List.range_succ]; simp [ih, Finset.sum_range_succ]

/-! Counting the candidates of `parts_mixit` -/

theorem parts_mixit_length (k : ℕ) :
    ∀ (l : ℕ) (lst : List ℕ), lst.Nodup →
      (parts_mixit k l lst).length = plen k l lst.length := by
  intro l
  induction l with
  | zero => intro lst _; rfl
  | succ l ih =>
      intro lst hn
      simp only [parts_mixit, List.length_flatMap]
      rw [sum_map_const_on _ _ (plen k l (lst.length - k)) ?uniform]
      · rw [combinations_length]; rfl
      case uniform =>
        intro c hc
        obtain ⟨hcs, hck⟩ := mem_combinations_sublist lst _ c hc
        have hrn : (lst.filter (fun x => x ∉ c)).Nodup := hn.filter _
        simp only [Function.comp_apply]
        rw [List.length_map, ih _ hrn, length_filter_not_mem hcs hn, hck]

/-- Pure arithmetic: `plen k l (k·l) = (k·l)! / (k!)^l`, stated without
division. -/
theorem plen_mul_factorial (k : ℕ) :
    ∀ l : ℕ, plen k l (k * l) * (Nat.factorial k) ^ l = Nat.factorial (k * l) := by
  intro l
  induction l with
  | zero => simp [plen]
  | succ l ih =>
      have hkl : k * (l + 1) = k * l + k := by ring
      have hsub : k * (l + 1) - k = k * l := by omega
      have hle : k ≤ k * l + k := by omega
      have hchoose := Nat.choose_mul_factorial_mul_factorial hle
      simp only [plen]
      rw [hsub, hkl]
      calc Nat.choose (k * l + k) k * plen k l (k * l) * Nat.factorial k ^ (l + 1)
          = Nat.choose (k * l + k) k * Nat.factorial k *
              (plen k l (k * l) * Nat.factorial k ^ l) := by ring
        _ = Nat.choose (k * l + k) k * Nat.factorial k * Nat.factorial (k * l) := by
              rw [ih]
        _ = Nat.factorial (k * l + k) := by
              simpa [Nat.add_sub_cancel] using hchoose

/-! Every emitted candidate is a valid partition -/

theorem parts_mixit_mem_spec (k : ℕ) :
    ∀ (l : ℕ) (lst : List ℕ), lst.Nodup → lst.length = k * l →
      ∀ p ∈ parts_mixit k l lst,
        p.length = l ∧ (∀ g ∈ p, g.length = k) ∧
          p.flatten.Nodup ∧ List.Perm p.flatten lst := by
  intro l
  induction l with
  | zero =>
      intro lst hn hlen p hp
      simp only [parts_mixit, List.mem_singleton] at hp
      subst hp
      have hnil : lst = [] := List.eq_nil_of_length_eq_zero (by simpa using hlen)
      subst hnil
      simp
  | succ l ih =>
      intro lst hn hlen p hp
      simp only [parts_mixit, List.mem_flatMap, List.mem_map] at hp
      obtain ⟨c, hc, r, hr, rfl⟩ := hp
      obtain ⟨hcs, hck⟩ := mem_combinations_sublist lst _ c hc
      have hrn : (lst.filter (fun x => x ∉ c)).Nodup := hn.filter _
      have hperm := perm_sublist_filter_not hcs hn
      have hmul : k * (l + 1) = k * l + k := by ring
      have hrl : (lst.filter (fun x => x ∉ c)).length = k * l := by
        rw [length_filter_not_mem hcs hn, hck, hlen]
        omega
      obtain ⟨hrlen, hrg, hrnd, hrp⟩ := ih _ hrn hrl r hr
      have hjoin : List.Perm (c :: r).flatten lst := by
        simp only [List.flatten_cons]
        exact (hrp.append_left c).trans hperm
      refine ⟨by simp [hrlen], ?_, ?_, hjoin⟩
      · intro g hg
        rcases List.mem_cons.mp hg with rfl | hg
        · exact hck
        · exact hrg g hg
      · exact hjoin.nodup_iff.mpr hn

theorem parts_mixit_gen_mem_spec {lst : List ℕ} (hn : lst.Nodup) :
    ∀ p ∈ parts_mixit_gen lst,
      p.length = 2 ∧ p.flatten.Nodup ∧ List.Perm p.flatten lst := by
  intro p hp
  simp only [parts_mixit_gen, List.mem_flatMap, List.mem_map, List.mem_range] at hp
  obtain ⟨k, hk, c, hc, rfl⟩ := hp
  obtain ⟨hcs, hck⟩ := mem_combinations_sublist lst k c hc
  have hperm := perm_sublist_filter_not hcs hn
  have hflat : List.Perm [c, lst.filter (fun x => x ∉ c)].flatten lst := by
    simpa using hperm
  exact ⟨rfl, hflat.nodup_iff.mpr hn, hflat⟩

/-! Counting the candidates of `parts_mixit_gen` -/

theorem parts_mixit_gen_length (lst : List ℕ) :
    (parts_mixit_gen lst).length = 2 ^ lst.length := by
  simp only [parts_mixit_gen, List.length_flatMap]
  have hcongr : (List.range (lst.length + 1)).map
        (List.length ∘ fun k => ((combinations k lst).map
          (fun c => [c, lst.filter (fun x => x ∉ c)])))
      = (List.range (lst.length + 1)).map (fun k => Nat.choose lst.length k) := by
    apply List.map_congr_left
    intro k _
    simp only [Function.comp_apply]
    rw [List.length_map, combinations_length]
  rw [hcongr, sum_map_range, Nat.sum_range_choose]

theorem nil_full_mem_parts_mixit_gen (lst : List ℕ) :
    [([] : List ℕ), lst] ∈ parts_mixit_gen lst := by
  simp only [parts_mixit_gen, List.mem_flatMap]
  refine ⟨0, by simp, ?_⟩
  have hfil : lst.filter (fun x => x ∉ ([] : List ℕ)) = lst :=
    List.filter_eq_self.mpr (fun a _ => by simp)
  simp [combinations, hfil]

theorem full_nil_mem_parts_mixit_gen (lst : List ℕ) :
    [lst, ([] : List ℕ)] ∈ parts_mixit_gen lst := by
  simp only [parts_mixit_gen, List.mem_flatMap]
  refine ⟨lst.length, by simp, ?_⟩
  have hfil : lst.filter (fun x => x ∉ lst) = [] := by
    apply List.filter_eq_nil_iff.mpr
    intro a ha
    simp [ha]
  rw [combinations_self]
  simp [hfil]

/-! Properties of the first-minimum selector -/

theorem firstMinPair_idx_lt :
    ∀ l : List ℚ, l ≠ [] → (firstMinPair l).1 < l.length := by
  intro l
  induction l with
  | nil => intro h; exact absurd rfl h
  | cons x xs ih =>
      intro _
      cases xs with
      | nil => simp [firstMinPair]
      | cons y ys =>
          have hlt := ih (by simp)
          simp only [List.length_cons] at hlt ⊢
          simp only [firstMinPair]
          by_cases hc : (firstMinPair (y :: ys)).2 < x
          · simp only [if_pos hc]
            omega
          · simp only [if_neg hc]
            omega

theorem firstMinPair_getD :
    ∀ l : List ℚ, l ≠ [] → l.getD (firstMinPair l).1 0 = (firstMinPair l).2 := by
  intro l
  induction l with
  | nil => intro h; exact absurd rfl h
  | cons x xs ih =>
      intro _
      cases xs with
      | nil => simp [firstMinPair]
      | cons y ys =>
          have hg := ih (by simp)
          simp only [firstMinPair]
          by_cases hc : (firstMinPair (y :: ys)).2 < x
          · simpa [if_pos hc] using hg
          · simp [if_neg hc]

theorem firstMinPair_le :
    ∀ (l : List ℚ) (t : ℕ), t < l.length → (firstMinPair l).2 ≤ l.getD t 0 := by
  intro l
  induction l with
  | nil => intro t ht; simp at ht
  | cons x xs ih =>
      intro t ht
      cases xs with
      | nil =>
          cases t with
          | zero => simp [firstMinPair]
          | succ t =>
              simp at ht
      | cons y ys =>
          simp only [firstMinPair]
          by_cases hc : (firstMinPair (y :: ys)).2 < x
          · simp only [if_pos hc]
            cases t with
            | zero => exact le_of_lt hc
            | succ t =>
                have := ih t (by simpa using ht)
                simpa using this
          · simp only [if_neg hc]
            cases t with
            | zero => simp
            | succ t =>
                have h1 := ih t (by simpa using ht)
                have h2 : x ≤ (firstMinPair (y :: ys)).2 := le_of_not_lt hc
                simpa using le_trans h2 h1

theorem firstMinPair_strict_before :
    ∀ (l : List ℚ) (t : ℕ), t < (firstMinPair l).1 →
      (firstMinPair l).2 < l.getD t 0 := by
  intro l
  induction l with
  | nil => intro t ht; simp [firstMinPair] at ht
  | cons x xs ih =>
      intro t ht
      cases xs with
      | nil => simp [firstMinPair] at ht
      | cons y ys =>
          simp only [firstMinPair] at ht ⊢
          by_cases hc : (firstMinPair (y :: ys)).2 < x
          · simp only [if_pos hc] at ht ⊢
            cases t with
            | zero => simpa using hc
            | succ t =>
                have := ih t (by omega)
                simpa using this
          · simp only [if_neg hc] at ht
            omega

/-! The loss-evaluation pipeline -/

/-- Line 153 (and line 221): `est_mixes = torch.stack([torch.sum(
est_targets[:, indexes, :], axis=1) for indexes in partition], axis=1)`,
viewed at batch element `b`: one summed mixture per group of the
candidate partition.  An empty group sums to `0`, as `torch.sum` over an
empty slice yields zeros. -/
def est_mixes {α : Type} [AddCommMonoid α] (est : ℕ → ℕ → α)
    (partition : List (List ℕ)) (b : ℕ) : List α :=
  partition.map (fun indexes => (indexes.map (fun i => est b i)).sum)

/-- Row `b` of `loss_set` (lines 146-158 and 215-226): the loss of every
candidate partition for batch element `b`, in candidate order. -/
def lossTableRow {α : Type} [AddCommMonoid α] (loss1 : List α → List α → ℚ)
    (parts : List (List (List ℕ))) (est : ℕ → ℕ → α) (tgt : ℕ → List α)
    (b : ℕ) : List ℚ :=
  parts.map (fun partition => loss1 (est_mixes est partition b) (tgt b))

/-- The full `(batch, num_candidates)` tensor `loss_set` built by
`torch.cat(loss_set, dim=1)`. -/
def lossTable {α : Type} [AddCommMonoid α] (loss1 : List α → List α → ℚ)
    (parts : List (List (List ℕ))) (est : ℕ → ℕ → α) (tgt : ℕ → List α)
    (batch : ℕ) : List (List ℚ) :=
  (List.range batch).map (fun b => lossTableRow loss1 parts est tgt b)

/-- Tensor `min_loss` of line 161: `torch.min(loss_set, dim=1, keepdim=True)[0]`,
a `(batch, 1)` tensor of per-element minimum losses. -/
def minLossKeepdim {α : Type} [AddCommMonoid α] (loss1 : List α → List α → ℚ)
    (parts : List (List (List ℕ))) (est : ℕ → ℕ → α) (tgt : ℕ → List α)
    (batch : ℕ) : List (List ℚ) :=
  (lossTable loss1 parts est tgt batch).map (fun r => [firstMinVal r])

/-- Tensor `min_loss_indexes` of line 161: `torch.min(loss_set, dim=1,
keepdim=True)[1]`, a `(batch, 1)` tensor of first-minimum indices. -/
def minIdxKeepdim {α : Type} [AddCommMonoid α] (loss1 : List α → List α → ℚ)
    (parts : List (List (List ℕ))) (est : ℕ → ℕ → α) (tgt : ℕ → List α)
    (batch : ℕ) : List (List ℕ) :=
  (lossTable loss1 parts est tgt batch).map (fun r => [firstMinIdx r])

/-- The per-batch-element minimum losses with the kept dimension dropped
(the values carried by `min_loss`). -/
def minLossFlat {α : Type} [AddCommMonoid α] (loss1 : List α → List α → ℚ)
    (parts : List (List (List ℕ))) (est : ℕ → ℕ → α) (tgt : ℕ → List α)
    (batch : ℕ) : List ℚ :=
  (lossTable loss1 parts est tgt batch).map firstMinVal

/-- The per-batch-element winning candidate indices with the kept
dimension dropped (the integer values carried by `min_loss_indexes`,
which is how `reorder_source` consumes them: `parts[idx]` indexes with
the single value held by each `(1,)` row). -/
def minIdxFlat {α : Type} [AddCommMonoid α] (loss1 : List α → List α → ℚ)
    (parts : List (List (List ℕ))) (est : ℕ → ℕ → α) (tgt : ℕ → List α)
    (batch : ℕ) : List ℕ :=
  (lossTable loss1 parts est tgt batch).map firstMinIdx

-- Error messages of the source (the first one concatenates two adjacent
-- string literals with no space, hence "Expectedone").
def err_unsupported : String :=
  "Unsupported loss function type for now. Expectedone of [`mix_it`, `mix_it_gen`]"

def err_same_number : String :=
  "The mixtures are assumed to contain the same number of sources"

def err_two_mixtures : String :=
  "Works only with two mixtures"

def err_zero_division : String :=
  "ZeroDivisionError: integer modulo by zero"

/-- Method `MixITLossWrapper.best_part_mix_it` (lines 94-164): check
`nsrc % nmix == 0` (in Python `nsrc % nmix` itself raises
`ZeroDivisionError` when `nmix = 0`, checked first here), enumerate the
partitions of `range(nsrc)` into `nmix` groups of `nsrc // nmix`, build
the loss table, and take the per-row first minimum with `keepdim=True`. -/
def best_part_mix_it {α : Type} [AddCommMonoid α] (loss1 : List α → List α → ℚ)
    (est : ℕ → ℕ → α) (tgt : ℕ → List α) (batch nsrc nmix : ℕ) :
    Except String (List (List ℚ) × List (List ℕ) × List (List (List ℕ))) :=
  if nmix = 0 then Except.error err_zero_division
  else if nsrc % nmix ≠ 0 then Except.error err_same_number
  else
    Except.ok
      (minLossKeepdim loss1 (parts_mixit (nsrc / nmix) nmix (List.range nsrc)) est tgt batch,
       minIdxKeepdim loss1 (parts_mixit (nsrc / nmix) nmix (List.range nsrc)) est tgt batch,
       parts_mixit (nsrc / nmix) nmix (List.range nsrc))

/-- Method `MixITLossWrapper.best_part_mix_it_generalized` (lines 166-232):
require exactly two mixtures, enumerate every subset/complement split of
`range(nsrc)`, and select as above. -/
def best_part_mix_it_generalized {α : Type} [AddCommMonoid α]
    (loss1 : List α → List α → ℚ) (est : ℕ → ℕ → α) (tgt : ℕ → List α)
    (batch nsrc nmix : ℕ) :
    Except String (List (List ℚ) × List (List ℕ) × List (List (List ℕ))) :=
  if nmix ≠ 2 then Except.error err_two_mixtures
  else
    Except.ok
      (minLossKeepdim loss1 (parts_mixit_gen (List.range nsrc)) est tgt batch,
       minIdxKeepdim loss1 (parts_mixit_gen (List.range nsrc)) est tgt batch,
       parts_mixit_gen (List.range nsrc))

/-- Method `MixITLossWrapper.reorder_source` (lines 234-258): for each batch
element `b` (Python `for b, idx in enumerate(min_loss_idx)`, modelled as
mapping over `range` of the index-vector length), look up the winning
partition `parts[idx]` and recompute
`torch.stack([torch.sum(est_targets[b, indexes, :][None, :, :], axis=1)
for indexes in right_partition], axis=1)`,
the per-group sums of batch element `b`'s estimated sources. -/
def reorder_source {α : Type} [AddCommMonoid α] (est : ℕ → ℕ → α)
    (parts : List (List (List ℕ))) (min_loss_idx : List ℕ) : List (List α) :=
  (List.range min_loss_idx.length).map (fun b =>
    (parts.getD (min_loss_idx.getD b 0) []).map
      (fun indexes => (indexes.map (fun i => est b i)).sum))

/-- Method `MixITLossWrapper.__init__` (lines 38-44): store `pit_from` and raise
`ValueError` unless it is one of `mix_it`, `mix_it_gen`. -/
def MixITinit (pit_from : String) : Except String String :=
  if pit_from = "mix_it" ∨ pit_from = "mix_it_gen" then Except.ok pit_from
  else Except.error err_unsupported

/-- The default value of the `pit_from` parameter of
`MixITLossWrapper.__init__` (line 38: `pit_from='pw_mtx'`). -/
def pit_from_default : String := "pw_mtx"

/-- Model of `torch.mean` of a tensor holding `l.length` values. -/
def qmean (l : List ℚ) : ℚ := l.sum / l.length

/-- Method `MixITLossWrapper.forward` (lines 46-91), up to the scalar loss (the
`return_est=False` path): dispatch on `self.pit_from`, propagate raised
errors, and return `torch.mean(min_loss)`; the trailing `else: return`
(line 81-82) is the `none` branch. -/
def forward {α : Type} [AddCommMonoid α] (pit_from : String)
    (loss1 : List α → List α → ℚ) (est : ℕ → ℕ → α) (tgt : ℕ → List α)
    (batch nsrc nmix : ℕ) : Option (Except String ℚ) :=
  if pit_from = "mix_it" then
    some ((best_part_mix_it loss1 est tgt batch nsrc nmix).map
      (fun r => qmean r.1.flatten))
  else if pit_from = "mix_it_gen" then
    some ((best_part_mix_it_generalized loss1 est tgt batch nsrc nmix).map
      (fun r => qmean r.1.flatten))
  else
    none

/-- Shape of a rank-2 tensor modelled as a rectangular list of rows. -/
def tensor2Shape {β : Type} (t : List (List β)) : List ℕ :=
  [t.length, (t.headD []).length]

/-! Indexing helpers -/

theorem getD_map_range {β : Type} (f : ℕ → β) {n b : ℕ} (hb : b < n) (d : β) :
    ((List.range n).map f).getD b d = f b := by
  have hlen : b < ((List.range n).map f).length := by simpa using hb
  rw [List.getD_eq_getElem?_getD, List.getElem?_eq_getElem hlen]
  simp

theorem getD_map_lt {β γ : Type} (g : β → γ) {l : List β} {i : ℕ}
    (hi : i < l.length) (d : β) (d' : γ) :
    (l.map g).getD i d' = g (l.getD i d) := by
  have h1 : i < (l.map g).length := by simpa using hi
  rw [List.getD_eq_getElem?_getD, List.getElem?_eq_getElem h1,
      List.getD_eq_getElem?_getD, List.getElem?_eq_getElem hi]
  simp

theorem flatten_map_singleton {β γ : Type} (l : List β) (f : β → γ) :
    (l.map (fun r => [f r])).flatten = l.map f := by
  induction l with
  | nil => rfl
  | cons x xs ih => simp [ih]

/-- The loss-table row of batch element `b` reads only batch element `b`
of the estimates and targets. -/
theorem lossTableRow_congr {α : Type} [AddCommMonoid α]
    (loss1 : List α → List α → ℚ) (parts : List (List (List ℕ)))
    {est est' : ℕ → ℕ → α} {tgt tgt' : ℕ → List α} (b : ℕ)
    (hest : est b = est' b) (htgt : tgt b = tgt' b) :
    lossTableRow loss1 parts est tgt b = lossTableRow loss1 parts est' tgt' b := by
  simp only [lossTableRow, est_mixes, htgt]
  apply List.map_congr_left
  intro p _
  have hsum : ∀ indexes : List ℕ,
      (indexes.map (fun i => est b i)).sum = (indexes.map (fun i => est' b i)).sum := by
    intro indexes
    rw [hest]
  have : p.map (fun indexes => (indexes.map (fun i => est b i)).sum)
      = p.map (fun indexes => (indexes.map (fun i => est' b i)).sum) := by
    apply List.map_congr_left
    intro idxs _
    exact hsum idxs
  rw [this]

theorem lossTable_getD {α : Type} [AddCommMonoid α]
    (loss1 : List α → List α → ℚ) (parts : List (List (List ℕ)))
    (est : ℕ → ℕ → α) (tgt : ℕ → List α) {batch b : ℕ} (hb : b < batch) :
    (lossTable loss1 parts est tgt batch).getD b [] = lossTableRow loss1 parts est tgt b := by
  unfold lossTable
  exact getD_map_range _ hb _

theorem minIdxFlat_getD {α : Type} [AddCommMonoid α]
    (loss1 : List α → List α → ℚ) (parts : List (List (List ℕ)))
    (est : ℕ → ℕ → α) (tgt : ℕ → List α) {batch b : ℕ} (hb : b < batch) :
    (minIdxFlat loss1 parts est tgt batch).getD b 0
      = firstMinIdx (lossTableRow loss1 parts est tgt b) := by
  unfold minIdxFlat
  have hlen : b < (lossTable loss1 parts est tgt batch).length := by
    simp [lossTable, hb]
  rw [getD_map_lt firstMinIdx hlen [] 0, lossTable_getD loss1 parts est tgt hb]

theorem minLossFlat_getD {α : Type} [AddCommMonoid α]
    (loss1 : List α → List α → ℚ) (parts : List (List (List ℕ)))
    (est : ℕ → ℕ → α) (tgt : ℕ → List α) {batch b : ℕ} (hb : b < batch) :
    (minLossFlat loss1 parts est tgt batch).getD b 0
      = firstMinVal (lossTableRow loss1 parts est tgt b) := by
  unfold minLossFlat
  have hlen : b < (lossTable loss1 parts est tgt batch).length := by
    simp [lossTable, hb]
  rw [getD_map_lt firstMinVal hlen [] 0, lossTable_getD loss1 parts est tgt hb]

theorem minIdxFlat_length {α : Type} [AddCommMonoid α]
    (loss1 : List α → List α → ℚ) (parts : List (List (List ℕ)))
    (est : ℕ → ℕ → α) (tgt : ℕ → List α) (batch : ℕ) :
    (minIdxFlat loss1 parts est tgt batch).length = batch := by
  simp [minIdxFlat, lossTable]

/-! The claims -/

/-- C1 (counterexample): with `k = 4` estimates and `m = 2` targets
(group size `nsrcmix = 2`), `parts_mixit` does *not* produce 3
candidates. -/
theorem C1_counterexample : (parts_mixit 2 2 (List.range 4)).length ≠ 3 := by
  decide

/-- C1 (amended): for a duplicate-free pool of `k·l` indices,
`parts_mixit` with group size `k` and `l` groups produces exactly
`(k·l)! / (k!)^l` candidates (stated multiplicatively) — the group lists
are ordered, so each unordered partition appears `l!` times; in
particular for 4 estimates and 2 mixtures it produces exactly the 6
ordered candidates below, the 3 unordered partitions each in both group
orders. -/
theorem C1_amended_count :
    (∀ (lst : List ℕ) (k l : ℕ), lst.Nodup → lst.length = k * l →
        (parts_mixit k l lst).length * (Nat.factorial k) ^ l = Nat.factorial (k * l))
    ∧ parts_mixit 2 2 (List.range 4) =
        [[[0, 1], [2, 3]], [[0, 2], [1, 3]], [[0, 3], [1, 2]],
         [[1, 2], [0, 3]], [[1, 3], [0, 2]], [[2, 3], [0, 1]]] := by
  constructor
  · intro lst k l hn hlen
    rw [parts_mixit_length k l lst hn, hlen, plen_mul_factorial]
  · decide

theorem C1_count_witness :
    (List.range 4).Nodup ∧ (List.range 4).length = 2 * 2 ∧
      (parts_mixit 2 2 (List.range 4)).length * (Nat.factorial 2) ^ 2
        = Nat.factorial (2 * 2) :=
  ⟨by decide, by decide, C1_amended_count.1 (List.range 4) 2 2 (by decide) (by decide)⟩

/-- C3: for every `k`, `parts_mixit_gen` on `range k` produces exactly
`2 ^ k` candidates, among them the split with empty first group and the
split with empty second group (so empty groups are accepted as
candidates, not rejected). -/
theorem C3_gen_count :
    ∀ k : ℕ, (parts_mixit_gen (List.range k)).length = 2 ^ k
      ∧ [([] : List ℕ), List.range k] ∈ parts_mixit_gen (List.range k)
      ∧ [List.range k, ([] : List ℕ)] ∈ parts_mixit_gen (List.range k) := by
  intro k
  refine ⟨?_, nil_full_mem_parts_mixit_gen _, full_nil_mem_parts_mixit_gen _⟩
  simpa using parts_mixit_gen_length (List.range k)

/-- C4: every candidate emitted by `parts_mixit` (called as
`best_part_mix_it` calls it, on `range k` with group size `k / m` and
`m` groups, `m ∣ k`) and every candidate emitted by `parts_mixit_gen`
is a valid partition of `{0, ..., k-1}`: the concatenation of its groups
has no repeated index and is a permutation of `range k` (pairwise
disjointness and exact cover). -/
theorem C4_partition_invariant :
    (∀ (k m : ℕ), m ∣ k →
        ∀ p ∈ parts_mixit (k / m) m (List.range k),
          p.flatten.Nodup ∧ List.Perm p.flatten (List.range k))
    ∧ (∀ k : ℕ, ∀ p ∈ parts_mixit_gen (List.range k),
        p.flatten.Nodup ∧ List.Perm p.flatten (List.range k)) := by
  constructor
  · intro k m hd p hp
    have hlen : (List.range k).length = (k / m) * m := by
      simp [Nat.div_mul_cancel hd]
    obtain ⟨-, -, hnd, hperm⟩ :=
      parts_mixit_mem_spec (k / m) m (List.range k) (List.nodup_range k) hlen p hp
    exact ⟨hnd, hperm⟩
  · intro k p hp
    obtain ⟨-, hnd, hperm⟩ := parts_mixit_gen_mem_spec (List.nodup_range k) p hp
    exact ⟨hnd, hperm⟩

theorem C4_partition_invariant_witness :
    ([[0, 1], [2, 3]] : List (List ℕ)).flatten.Nodup
      ∧ List.Perm ([[0, 1], [2, 3]] : List (List ℕ)).flatten (List.range 4) :=
  C4_partition_invariant.1 4 2 (by decide) [[0, 1], [2, 3]] (by decide)

/-- C5: the selector used on each row of the loss table
(`torch.min(..., dim=1)`, modelled by `firstMinIdx`) is a stable
minimum: if the minimal value of the row occurs at indices `i < j` and
`i` is the first occurrence of the minimum, the winning index is `i`. -/
theorem C5_selector_stable (l : List ℚ) (i j : ℕ) (hij : i < j)
    (hj : j < l.length) (_htie : l.getD i 0 = l.getD j 0)
    (hmin : ∀ t, t < l.length → l.getD i 0 ≤ l.getD t 0)
    (hfirst : ∀ t, t < i → l.getD i 0 < l.getD t 0) :
    firstMinIdx l = i := by
  have hi : i < l.length := lt_trans hij hj
  have hne : l ≠ [] := by
    intro hnil
    rw [hnil] at hi
    simp at hi
  have hgd := firstMinPair_getD l hne
  have hfm : (firstMinPair l).1 = firstMinIdx l := rfl
  rw [hfm] at hgd
  rcases Nat.lt_trichotomy (firstMinIdx l) i with hlt | heq | hgt
  · exfalso
    have h1 := hfirst _ hlt
    have h2 := firstMinPair_le l i hi
    rw [hgd] at h1
    linarith
  · exact heq
  · exfalso
    have h1 := firstMinPair_strict_before l i hgt
    have h2 := hmin _ (firstMinPair_idx_lt l hne)
    rw [hfm, hgd] at h2
    linarith

theorem C5_selector_stable_witness : firstMinIdx [5, 1, 1, 3] = 1 :=
  C5_selector_stable [5, 1, 1, 3] 1 2 (by decide) (by decide) (by decide)
    (by decide) (by decide)

/-- C9: the default `pit_from='pw_mtx'` of the constructor is not one of
the two accepted modes, so constructing `MixITLossWrapper` with only a
loss function always raises `ValueError`. -/
theorem C9_default_mode_raises :
    MixITinit pit_from_default = Except.error err_unsupported
      ∧ pit_from_default ≠ "mix_it" ∧ pit_from_default ≠ "mix_it_gen" := by
  refine ⟨?_, by decide, by decide⟩
  rfl

/-- C2: round trip through `reorder_source`.  For every batch element
`b`, rebuilding the grouped-and-summed estimate from the reported
winning index reproduces exactly the candidate tensor `est_mixes` the
loss evaluator built for that candidate at that element; the
reconstruction has the target batch's shape (`batch` rows of `nmix`
signals); and re-evaluating the loss on the reconstruction against the
targets gives back the reported minimum loss (exactly — losses are
rationals here, so floating associativity does not intervene). -/
theorem C2_roundtrip {α : Type} [AddCommMonoid α] (loss1 : List α → List α → ℚ)
    (parts : List (List (List ℕ))) (est : ℕ → ℕ → α) (tgt : ℕ → List α)
    (batch nmix b : ℕ) (hb : b < batch) (hne : parts ≠ [])
    (hgroups : ∀ p ∈ parts, p.length = nmix) (htgt : (tgt b).length = nmix) :
    (reorder_source est parts (minIdxFlat loss1 parts est tgt batch)).length = batch
    ∧ (reorder_source est parts (minIdxFlat loss1 parts est tgt batch)).getD b []
        = est_mixes est
            (parts.getD ((minIdxFlat loss1 parts est tgt batch).getD b 0) []) b
    ∧ ((reorder_source est parts (minIdxFlat loss1 parts est tgt batch)).getD b []).length
        = (tgt b).length
    ∧ loss1 ((reorder_source est parts (minIdxFlat loss1 parts est tgt batch)).getD b [])
          (tgt b)
        = (minLossFlat loss1 parts est tgt batch).getD b 0 := by
  have hlen : (minIdxFlat loss1 parts est tgt batch).length = batch :=
    minIdxFlat_length loss1 parts est tgt batch
  have hb' : b < (minIdxFlat loss1 parts est tgt batch).length := by
    rw [hlen]; exact hb
  have hreorder_len :
      (reorder_source est parts (minIdxFlat loss1 parts est tgt batch)).length = batch := by
    simp [reorder_source, hlen]
  have hget : (reorder_source est parts (minIdxFlat loss1 parts est tgt batch)).getD b []
      = est_mixes est
          (parts.getD ((minIdxFlat loss1 parts est tgt batch).getD b 0) []) b := by
    unfold reorder_source
    exact getD_map_range _ hb' []
  have hidx : (minIdxFlat loss1 parts est tgt batch).getD b 0
      = firstMinIdx (lossTableRow loss1 parts est tgt b) :=
    minIdxFlat_getD loss1 parts est tgt hb
  have hrow_ne : lossTableRow loss1 parts est tgt b ≠ [] := by
    intro hnil
    apply hne
    have := congrArg List.length hnil
    simp only [lossTableRow, List.length_map, List.length_nil] at this
    exact List.eq_nil_of_length_eq_zero this
  have hip : firstMinIdx (lossTableRow loss1 parts est tgt b)
      < (lossTableRow loss1 parts est tgt b).length :=
    firstMinPair_idx_lt _ hrow_ne
  have hip' : firstMinIdx (lossTableRow loss1 parts est tgt b) < parts.length := by
    simpa [lossTableRow] using hip
  have hmem : parts.getD (firstMinIdx (lossTableRow loss1 parts est tgt b)) [] ∈ parts := by
    rw [List.getD_eq_getElem?_getD, List.getElem?_eq_getElem hip']
    exact List.getElem_mem _
  have hval : (lossTableRow loss1 parts est tgt b).getD
        (firstMinIdx (lossTableRow loss1 parts est tgt b)) 0
      = loss1 (est_mixes est
          (parts.getD (firstMinIdx (lossTableRow loss1 parts est tgt b)) []) b) (tgt b) := by
    unfold lossTableRow
    exact getD_map_lt _ hip' [] 0
  have hminval : (lossTableRow loss1 parts est tgt b).getD
        (firstMinIdx (lossTableRow loss1 parts est tgt b)) 0
      = firstMinVal (lossTableRow loss1 parts est tgt b) :=
    firstMinPair_getD _ hrow_ne
  refine ⟨hreorder_len, hget, ?_, ?_⟩
  · rw [hget, hidx, htgt]
    simp only [est_mixes, List.length_map]
    exact hgroups _ hmem
  · rw [hget, hidx, minLossFlat_getD loss1 parts est tgt hb, ← hminval, hval]

theorem C2_roundtrip_witness :
    (reorder_source (fun b i => if b = 0 then (if i = 0 then (1 : ℚ) else 2)
          else (if i = 0 then 3 else 4))
        (parts_mixit 1 2 (List.range 2))
        (minIdxFlat (fun es ts => if es = ts then (0 : ℚ) else 1)
          (parts_mixit 1 2 (List.range 2))
          (fun b i => if b = 0 then (if i = 0 then (1 : ℚ) else 2)
            else (if i = 0 then 3 else 4))
          (fun b => if b = 0 then [(2 : ℚ), 1] else [3, 4]) 2)).length = 2
    ∧ (reorder_source (fun b i => if b = 0 then (if i = 0 then (1 : ℚ) else 2)
          else (if i = 0 then 3 else 4))
        (parts_mixit 1 2 (List.range 2))
        (minIdxFlat (fun es ts => if es = ts then (0 : ℚ) else 1)
          (parts_mixit 1 2 (List.range 2))
          (fun b i => if b = 0 then (if i = 0 then (1 : ℚ) else 2)
            else (if i = 0 then 3 else 4))
          (fun b => if b = 0 then [(2 : ℚ), 1] else [3, 4]) 2)).getD 0 []
        = est_mixes (fun b i => if b = 0 then (if i = 0 then (1 : ℚ) else 2)
            else (if i = 0 then 3 else 4))
            ((parts_mixit 1 2 (List.range 2)).getD
              ((minIdxFlat (fun es ts => if es = ts then (0 : ℚ) else 1)
                (parts_mixit 1 2 (List.range 2))
                (fun b i => if b = 0 then (if i = 0 then (1 : ℚ) else 2)
                  else (if i = 0 then 3 else 4))
                (fun b => if b = 0 then [(2 : ℚ), 1] else [3, 4]) 2).getD 0 0) []) 0
    ∧ ((reorder_source (fun b i => if b = 0 then (if i = 0 then (1 : ℚ) else 2)
          else (if i = 0 then 3 else 4))
        (parts_mixit 1 2 (List.range 2))
        (minIdxFlat (fun es ts => if es = ts then (0 : ℚ) else 1)
          (parts_mixit 1 2 (List.range 2))
          (fun b i => if b = 0 then (if i = 0 then (1 : ℚ) else 2)
            else (if i = 0 then 3 else 4))
          (fun b => if b = 0 then [(2 : ℚ), 1] else [3, 4]) 2)).getD 0 []).length
        = ((fun b => if b = 0 then [(2 : ℚ), 1] else [3, 4]) 0).length
    ∧ (fun es ts => if es = ts then (0 : ℚ) else 1)
          ((reorder_source (fun b i => if b = 0 then (if i = 0 then (1 : ℚ) else 2)
              else (if i = 0 then 3 else 4))
            (parts_mixit 1 2 (List.range 2))
            (minIdxFlat (fun es ts => if es = ts then (0 : ℚ) else 1)
              (parts_mixit 1 2 (List.range 2))
              (fun b i => if b = 0 then (if i = 0 then (1 : ℚ) else 2)
                else (if i = 0 then 3 else 4))
              (fun b => if b = 0 then [(2 : ℚ), 1] else [3, 4]) 2)).getD 0 [])
          ((fun b => if b = 0 then [(2 : ℚ), 1] else [3, 4]) 0)
        = (minLossFlat (fun es ts => if es = ts then (0 : ℚ) else 1)
            (parts_mixit 1 2 (List.range 2))
            (fun b i => if b = 0 then (if i = 0 then (1 : ℚ) else 2)
              else (if i = 0 then 3 else 4))
            (fun b => if b = 0 then [(2 : ℚ), 1] else [3, 4]) 2).getD 0 0 :=
  C2_roundtrip (fun es ts => if es = ts then (0 : ℚ) else 1)
    (parts_mixit 1 2 (List.range 2))
    (fun b i => if b = 0 then (if i = 0 then (1 : ℚ) else 2)
      else (if i = 0 then 3 else 4))
    (fun b => if b = 0 then [(2 : ℚ), 1] else [3, 4]) 2 2 0
    (by decide) (by decide) (by decide) (by decide)

/-- C6: configuration errors are raised, never silently corrected: an
unrecognized mode string fails at construction; in equal-partition mode
a call with `nsrc` not divisible by `nmix` fails (with the
divisibility `ValueError`, or with the `ZeroDivisionError` that
`nsrc % nmix` itself raises when `nmix = 0`); in generalized mode a
call with `nmix ≠ 2` fails. -/
theorem C6_config_errors :
    (∀ s : String, s ≠ "mix_it" → s ≠ "mix_it_gen" →
        MixITinit s = Except.error err_unsupported)
    ∧ (∀ (loss1 : List ℚ → List ℚ → ℚ) (est : ℕ → ℕ → ℚ) (tgt : ℕ → List ℚ)
        (batch nsrc nmix : ℕ), nsrc % nmix ≠ 0 →
          ∃ e, best_part_mix_it loss1 est tgt batch nsrc nmix = Except.error e)
    ∧ (∀ (loss1 : List ℚ → List ℚ → ℚ) (est : ℕ → ℕ → ℚ) (tgt : ℕ → List ℚ)
        (batch nsrc nmix : ℕ), nmix ≠ 2 →
          best_part_mix_it_generalized loss1 est tgt batch nsrc nmix
            = Except.error err_two_mixtures) := by
  refine ⟨?_, ?_, ?_⟩
  · intro s h1 h2
    unfold MixITinit
    rw [if_neg]
    exact fun h => h.elim h1 h2
  · intro loss1 est tgt batch nsrc nmix hmod
    unfold best_part_mix_it
    by_cases h0 : nmix = 0
    · exact ⟨err_zero_division, by rw [if_pos h0]⟩
    · exact ⟨err_same_number, by rw [if_neg h0, if_pos hmod]⟩
  · intro loss1 est tgt batch nsrc nmix h2
    unfold best_part_mix_it_generalized
    rw [if_pos h2]

theorem C6_config_errors_witness :
    MixITinit ("pw_mtx") = Except.error err_unsupported
    ∧ (∃ e, best_part_mix_it (fun _ _ => (0 : ℚ)) (fun _ _ => (0 : ℚ))
          (fun _ => ([] : List ℚ)) 1 3 2 = Except.error e)
    ∧ best_part_mix_it_generalized (fun _ _ => (0 : ℚ)) (fun _ _ => (0 : ℚ))
        (fun _ => ([] : List ℚ)) 1 3 3 = Except.error err_two_mixtures :=
  ⟨C6_config_errors.1 ("pw_mtx") (by decide) (by decide),
   C6_config_errors.2.1 _ _ _ 1 3 2 (by decide),
   C6_config_errors.2.2 _ _ _ 1 3 3 (by decide)⟩

/-- C7: batch noninterference.  With the loss function acting per batch
element (the documented contract), the minimum loss, the winning
candidate index and the reconstructed output at batch element `b`
depend only on batch element `b` of the estimates and targets; and
different batch elements may pick different winning candidates
(witnessed by a concrete run of the equal-partition pipeline whose two
batch elements select different indices). -/
theorem C7_batch_independence :
    (∀ (loss1 : List ℚ → List ℚ → ℚ) (parts : List (List (List ℕ)))
        (est est' : ℕ → ℕ → ℚ) (tgt tgt' : ℕ → List ℚ) (batch b : ℕ),
        b < batch → est b = est' b → tgt b = tgt' b →
          (minLossFlat loss1 parts est tgt batch).getD b 0
              = (minLossFlat loss1 parts est' tgt' batch).getD b 0
            ∧ (minIdxFlat loss1 parts est tgt batch).getD b 0
              = (minIdxFlat loss1 parts est' tgt' batch).getD b 0
            ∧ (reorder_source est parts (minIdxFlat loss1 parts est tgt batch)).getD b []
              = (reorder_source est' parts
                  (minIdxFlat loss1 parts est' tgt' batch)).getD b [])
    ∧ (∃ (loss1 : List ℕ → List ℕ → ℚ) (est : ℕ → ℕ → ℕ) (tgt : ℕ → List ℕ),
        (minIdxFlat loss1 (parts_mixit 1 2 (List.range 2)) est tgt 2).getD 0 0
          ≠ (minIdxFlat loss1 (parts_mixit 1 2 (List.range 2)) est tgt 2).getD 1 0) := by
  constructor
  · intro loss1 parts est est' tgt tgt' batch b hb hest htgt
    have hrow := lossTableRow_congr loss1 parts b hest htgt
    have hlen : (minIdxFlat loss1 parts est tgt batch).length = batch :=
      minIdxFlat_length loss1 parts est tgt batch
    have hlen' : (minIdxFlat loss1 parts est' tgt' batch).length = batch :=
      minIdxFlat_length loss1 parts est' tgt' batch
    have hb1 : b < (minIdxFlat loss1 parts est tgt batch).length := by
      rw [hlen]; exact hb
    have hb2 : b < (minIdxFlat loss1 parts est' tgt' batch).length := by
      rw [hlen']; exact hb
    have hidx : (minIdxFlat loss1 parts est tgt batch).getD b 0
        = (minIdxFlat loss1 parts est' tgt' batch).getD b 0 := by
      rw [minIdxFlat_getD loss1 parts est tgt hb,
          minIdxFlat_getD loss1 parts est' tgt' hb, hrow]
    refine ⟨?_, hidx, ?_⟩
    · rw [minLossFlat_getD loss1 parts est tgt hb,
          minLossFlat_getD loss1 parts est' tgt' hb, hrow]
    · unfold reorder_source
      rw [getD_map_range _ hb1 [], getD_map_range _ hb2 [], hidx]
      apply List.map_congr_left
      intro indexes _
      simp only [hest]
  · refine ⟨fun es ts => if es = ts then (0 : ℚ) else 1,
      fun b i => if b = 0 then (if i = 0 then 1 else 2)
        else (if i = 0 then 3 else 4),
      fun b => if b = 0 then [2, 1] else [3, 4], ?_⟩
    decide

theorem C7_batch_independence_witness :
    (minLossFlat (fun es ts => if es = ts then (0 : ℚ) else 1)
        (parts_mixit 1 2 (List.range 2))
        (fun _ i => if i = 0 then (1 : ℚ) else 2) (fun _ => [(2 : ℚ), 1]) 2).getD 0 0
      = (minLossFlat (fun es ts => if es = ts then (0 : ℚ) else 1)
          (parts_mixit 1 2 (List.range 2))
          (fun b i => if b = 0 then (if i = 0 then (1 : ℚ) else 2) else 9)
          (fun b => if b = 0 then [(2 : ℚ), 1] else [9]) 2).getD 0 0
    ∧ (minIdxFlat (fun es ts => if es = ts then (0 : ℚ) else 1)
        (parts_mixit 1 2 (List.range 2))
        (fun _ i => if i = 0 then (1 : ℚ) else 2) (fun _ => [(2 : ℚ), 1]) 2).getD 0 0
      = (minIdxFlat (fun es ts => if es = ts then (0 : ℚ) else 1)
          (parts_mixit 1 2 (List.range 2))
          (fun b i => if b = 0 then (if i = 0 then (1 : ℚ) else 2) else 9)
          (fun b => if b = 0 then [(2 : ℚ), 1] else [9]) 2).getD 0 0
    ∧ (reorder_source (fun _ i => if i = 0 then (1 : ℚ) else 2)
        (parts_mixit 1 2 (List.range 2))
        (minIdxFlat (fun es ts => if es = ts then (0 : ℚ) else 1)
          (parts_mixit 1 2 (List.range 2))
          (fun _ i => if i = 0 then (1 : ℚ) else 2)
          (fun _ => [(2 : ℚ), 1]) 2)).getD 0 []
      = (reorder_source (fun b i => if b = 0 then (if i = 0 then (1 : ℚ) else 2) else 9)
          (parts_mixit 1 2 (List.range 2))
          (minIdxFlat (fun es ts => if es = ts then (0 : ℚ) else 1)
            (parts_mixit 1 2 (List.range 2))
            (fun b i => if b = 0 then (if i = 0 then (1 : ℚ) else 2) else 9)
            (fun b => if b = 0 then [(2 : ℚ), 1] else [9]) 2)).getD 0 [] :=
  C7_batch_independence.1 (fun es ts => if es = ts then (0 : ℚ) else 1)
    (parts_mixit 1 2 (List.range 2))
    (fun _ i => if i = 0 then (1 : ℚ) else 2)
    (fun b i => if b = 0 then (if i = 0 then (1 : ℚ) else 2) else 9)
    (fun _ => [(2 : ℚ), 1]) (fun b => if b = 0 then [(2 : ℚ), 1] else [9]) 2 0
    (by decide) rfl rfl

/-- C8 (counterexample): the selection step does *not* return
`(batch,)`-shaped vectors: `torch.min(..., keepdim=True)` keeps the
reduced dimension, so on a batch of 2 the minimum-loss tensor has shape
`(2, 1)`, not `(2,)`. -/
theorem C8_counterexample :
    tensor2Shape (minLossKeepdim (fun _ _ => (0 : ℚ))
        (parts_mixit 1 2 (List.range 2)) (fun _ _ => (0 : ℚ))
        (fun _ => ([] : List ℚ)) 2) = [2, 1]
    ∧ ([2, 1] : List ℕ) ≠ [2] :=
  ⟨by decide, by decide⟩

/-- C8 (amended): the selection step returns a minimum-loss tensor and a
winning-index tensor of shape `(batch, 1)` (`keepdim=True`); dropping
the kept dimension gives the `batch` per-element values, and the scalar
loss returned by `forward` is `torch.mean` of that tensor, i.e. the sum
of the per-element minimum losses divided by the batch size. -/
theorem C8_amended_keepdim {α : Type} [AddCommMonoid α]
    (loss1 : List α → List α → ℚ) (parts : List (List (List ℕ)))
    (est : ℕ → ℕ → α) (tgt : ℕ → List α) (batch nsrc nmix : ℕ)
    (hnz : nmix ≠ 0) (hdvd : nsrc % nmix = 0) :
    (minLossKeepdim loss1 parts est tgt batch).length = batch
    ∧ (∀ r ∈ minLossKeepdim loss1 parts est tgt batch, r.length = 1)
    ∧ (minIdxKeepdim loss1 parts est tgt batch).length = batch
    ∧ (∀ r ∈ minIdxKeepdim loss1 parts est tgt batch, r.length = 1)
    ∧ (minLossKeepdim loss1 parts est tgt batch).flatten
        = minLossFlat loss1 parts est tgt batch
    ∧ (minLossFlat loss1 parts est tgt batch).length = batch
    ∧ forward ("mix_it") loss1 est tgt batch nsrc nmix
        = some (Except.ok (qmean (minLossFlat loss1
            (parts_mixit (nsrc / nmix) nmix (List.range nsrc)) est tgt batch)))
    ∧ qmean (minLossFlat loss1 parts est tgt batch)
        = (minLossFlat loss1 parts est tgt batch).sum / batch := by
  refine ⟨?_, ?_, ?_, ?_, ?_, ?_, ?_, ?_⟩
  · simp [minLossKeepdim, lossTable]
  · intro r hr
    simp only [minLossKeepdim, List.mem_map] at hr
    obtain ⟨row, -, rfl⟩ := hr
    rfl
  · simp [minIdxKeepdim, lossTable]
  · intro r hr
    simp only [minIdxKeepdim, List.mem_map] at hr
    obtain ⟨row, -, rfl⟩ := hr
    rfl
  · exact flatten_map_singleton _ _
  · simp [minLossFlat, lossTable]
  · unfold forward
    rw [if_pos rfl]
    unfold best_part_mix_it
    rw [if_neg hnz, if_neg (fun h => h hdvd)]
    simp only [Except.map, minLossKeepdim, minLossFlat]
    rw [flatten_map_singleton]
  · unfold qmean
    rw [show (minLossFlat loss1 parts est tgt batch).length = batch by
      simp [minLossFlat, lossTable]]

theorem C8_amended_keepdim_witness :
    (minLossKeepdim (fun _ _ => (0 : ℚ)) (parts_mixit 1 2 (List.range 2))
        (fun _ _ => (0 : ℚ)) (fun _ => ([] : List ℚ)) 2).length = 2
    ∧ (∀ r ∈ minLossKeepdim (fun _ _ => (0 : ℚ)) (parts_mixit 1 2 (List.range 2))
        (fun _ _ => (0 : ℚ)) (fun _ => ([] : List ℚ)) 2, r.length = 1)
    ∧ (minIdxKeepdim (fun _ _ => (0 : ℚ)) (parts_mixit 1 2 (List.range 2))
        (fun _ _ => (0 : ℚ)) (fun _ => ([] : List ℚ)) 2).length = 2
    ∧ (∀ r ∈ minIdxKeepdim (fun _ _ => (0 : ℚ)) (parts_mixit 1 2 (List.range 2))
        (fun _ _ => (0 : ℚ)) (fun _ => ([] : List ℚ)) 2, r.length = 1)
    ∧ (minLossKeepdim (fun _ _ => (0 : ℚ)) (parts_mixit 1 2 (List.range 2))
        (fun _ _ => (0 : ℚ)) (fun _ => ([] : List ℚ)) 2).flatten
      = minLossFlat (fun _ _ => (0 : ℚ)) (parts_mixit 1 2 (List.range 2))
          (fun _ _ => (0 : ℚ)) (fun _ => ([] : List ℚ)) 2
    ∧ (minLossFlat (fun _ _ => (0 : ℚ)) (parts_mixit 1 2 (List.range 2))
        (fun _ _ => (0 : ℚ)) (fun _ => ([] : List ℚ)) 2).length = 2
    ∧ forward ("mix_it") (fun _ _ => (0 : ℚ)) (fun _ _ => (0 : ℚ))
        (fun _ => ([] : List ℚ)) 2 2 1
      = some (Except.ok (qmean (minLossFlat (fun _ _ => (0 : ℚ))
          (parts_mixit (2 / 1) 1 (List.range 2)) (fun _ _ => (0 : ℚ))
          (fun _ => ([] : List ℚ)) 2)))
    ∧ qmean (minLossFlat (fun _ _ => (0 : ℚ)) (parts_mixit 1 2 (List.range 2))
        (fun _ _ => (0 : ℚ)) (fun _ => ([] : List ℚ)) 2)
      = (minLossFlat (fun _ _ => (0 : ℚ)) (parts_mixit 1 2 (List.range 2))
          (fun _ _ => (0 : ℚ)) (fun _ => ([] : List ℚ)) 2).sum / 2 :=
  C8_amended_keepdim (fun _ _ => (0 : ℚ)) (parts_mixit 1 2 (List.range 2))
    (fun _ _ => (0 : ℚ)) (fun _ => ([] : List ℚ)) 2 2 1 (by decide) (by decide)

/-- C10: for every successfully constructed wrapper, `forward`
dispatches to exactly one of the two search routines and never reaches
the trailing `return None` fallback: construction already rejected all
other mode strings. -/
theorem C10_dispatch_total {α : Type} [AddCommMonoid α] (s r : String)
    (h : MixITinit s = Except.ok r) (loss1 : List α → List α → ℚ)
    (est : ℕ → ℕ → α) (tgt : ℕ → List α) (batch nsrc nmix : ℕ) :
    forward s loss1 est tgt batch nsrc nmix ≠ none
    ∧ ((s = "mix_it" ∧ forward s loss1 est tgt batch nsrc nmix
          = some ((best_part_mix_it loss1 est tgt batch nsrc nmix).map
              (fun p => qmean p.1.flatten)))
      ∨ (s = "mix_it_gen" ∧ forward s loss1 est tgt batch nsrc nmix
          = some ((best_part_mix_it_generalized loss1 est tgt batch nsrc nmix).map
              (fun p => qmean p.1.flatten)))) := by
  have hs : s = "mix_it" ∨ s = "mix_it_gen" := by
    by_cases hc : s = "mix_it" ∨ s = "mix_it_gen"
    · exact hc
    · unfold MixITinit at h
      rw [if_neg hc] at h
      exact Except.noConfusion h
  rcases hs with rfl | rfl
  · have hfwd : forward ("mix_it") loss1 est tgt batch nsrc nmix
        = some ((best_part_mix_it loss1 est tgt batch nsrc nmix).map
            (fun p => qmean p.1.flatten)) := by
      unfold forward
      rw [if_pos rfl]
    exact ⟨by rw [hfwd]; exact Option.some_ne_none _, Or.inl ⟨rfl, hfwd⟩⟩
  · have hfwd : forward ("mix_it_gen") loss1 est tgt batch nsrc nmix
        = some ((best_part_mix_it_generalized loss1 est tgt batch nsrc nmix).map
            (fun p => qmean p.1.flatten)) := by
      unfold forward
      rw [if_neg (by decide), if_pos rfl]
    exact ⟨by rw [hfwd]; exact Option.some_ne_none _, Or.inr ⟨rfl, hfwd⟩⟩

theorem C10_dispatch_total_witness :
    forward ("mix_it") (fun _ _ => (0 : ℚ)) (fun _ _ => (0 : ℚ))
        (fun _ => ([] : List ℚ)) 1 2 1 ≠ none
    ∧ (("mix_it" = "mix_it" ∧ forward ("mix_it") (fun _ _ => (0 : ℚ))
          (fun _ _ => (0 : ℚ)) (fun _ => ([] : List ℚ)) 1 2 1
          = some ((best_part_mix_it (fun _ _ => (0 : ℚ)) (fun _ _ => (0 : ℚ))
              (fun _ => ([] : List ℚ)) 1 2 1).map (fun p => qmean p.1.flatten)))
      ∨ ("mix_it" = "mix_it_gen" ∧ forward ("mix_it") (fun _ _ => (0 : ℚ))
          (fun _ _ => (0 : ℚ)) (fun _ => ([] : List ℚ)) 1 2 1
          = some ((best_part_mix_it_generalized (fun _ _ => (0 : ℚ))
              (fun _ _ => (0 : ℚ)) (fun _ => ([] : List ℚ)) 1 2 1).map
                (fun p => qmean p.1.flatten)))) :=
  C10_dispatch_total ("mix_it") ("mix_it") rfl (fun _ _ => (0 : ℚ))
    (fun _ _ => (0 : ℚ)) (fun _ => ([] : List ℚ)) 1 2 1
